import Mathlib

/-!
Shallow embedding of the config-server core of the `hogan` repository
(`src/main.rs`, `src/git.rs`) together with proofs checking the
natural-language design document against it.

Strings handled by the Rust code are modelled as Lean `String`s (lists of
characters); commit identifiers are short hexadecimal strings.  Fallible
Rust functions returning `Result` are modelled with `Except`, `Option`
values stay `Option`.  The third-party LRU cache crate
(`lru_time_cache::LruCache`) is not part of the repository sources, so it
is modelled from the design document's cache section (fixed capacity,
least-recently-used eviction, recency updated on hit and insert).
-/

namespace Hogan

/-! ## Commit identifier normalisation (`format_sha`, `format_key` in `src/main.rs`) -/

/-- Embedding of `format_sha` from `src/main.rs`: inputs of length at least
seven are truncated to their first seven characters, shorter inputs pass
through unchanged.  Characters model the bytes of the Rust `&str` slice. -/
def formatSha (s : List Char) : List Char :=
  if 7 ≤ s.length then s.take 7 else s

/-- Embedding of `format_key` from `src/main.rs`: the environment-cache key
is the commit identifier and the environment name joined by a double colon. -/
def formatKey (sha env : List Char) : List Char :=
  sha ++ [':', ':'] ++ env

/-- Cache key used by the environment cache: the HTTP routes apply
`format_sha` to the path segment and `get_env` then applies `format_key`. -/
def envCacheKey (sha env : List Char) : List Char :=
  formatKey (formatSha sha) env

/-- Cache key used by the listing cache: `get_env_listing` applies
`format_sha` to its input and uses the result directly as the key. -/
def listingCacheKey (sha : List Char) : List Char :=
  formatSha sha

/-- String-level wrapper of `formatSha`, used by the stateful model of
`get_env_listing`. -/
def formatShaS (s : String) : String :=
  ⟨formatSha s.data⟩

/-! ## Credential selection (`clone`, `fetch`, `make_ssh_auth`,
`make_password_auth` in `src/git.rs`) -/

/-- The part of a parsed repository URL that credential selection inspects:
`url.password()` in the Rust code. -/
structure UrlModel where
  password : Option String
deriving DecidableEq

/-- Which kind of remote callbacks a git operation installs.  `password`
mirrors a `Cred::userpass_plaintext` callback, `sshKey` a `Cred::ssh_key`
callback, and `anonymous` callbacks with no credential function at all. -/
inductive CredSelection
  | password (pw : String)
  | sshKey (path : String)
  | anonymous
deriving DecidableEq

/-- Embedding of the credential selection in `clone` (`src/git.rs`): if the
URL carries a password, install a plaintext-password callback; otherwise if
an SSH key path is configured, install an SSH-key callback; otherwise leave
the callbacks without a credential function. -/
def cloneCredSelection (urlPassword : Option String) (sshKeyPath : Option String) :
    CredSelection :=
  match urlPassword with
  | some pw => .password pw
  | none =>
    match sshKeyPath with
    | some p => .sshKey p
    | none => .anonymous

/-- Embedding of `make_password_auth` (`src/git.rs`): a password callback
when the URL carries a password, otherwise fresh callbacks with no
credential function. -/
def makePasswordAuth (url : UrlModel) : CredSelection :=
  match url.password with
  | some pw => .password pw
  | none => .anonymous

/-- Embedding of the credential selection in `fetch` (`src/git.rs`): the
SSH key path is examined first; only when no SSH key is configured is the
URL password consulted via `make_password_auth`. -/
def fetchCredSelection (sshKeyPath : Option String) (url : Option UrlModel) :
    CredSelection :=
  match sshKeyPath with
  | some p => .sshKey p
  | none =>
    match url with
    | some u => makePasswordAuth u
    | none => .anonymous

/-- A credential value produced by a `git2` credential callback. -/
inductive Cred
  | userpassPlaintext (user : String) (pw : String)
  | sshKeyCred (user : String) (path : String)
deriving DecidableEq

/-- Outcome of running a credential callback: either a credential value or
a Rust panic (an `unwrap()` of `None`). -/
inductive CallbackOutcome
  | ok (c : Cred)
  | panicked
deriving DecidableEq

/-- Embedding of the password credential callback installed by `clone` and
`make_password_auth`: `Cred::userpass_plaintext(username_from_url.unwrap(), password)`.
When libgit2 supplies no username from the URL, the `unwrap()` panics. -/
def passwordCredCallback (usernameFromUrl : Option String) (password : String) :
    CallbackOutcome :=
  match usernameFromUrl with
  | some u => .ok (.userpassPlaintext u password)
  | none => .panicked

/-- Embedding of the SSH credential callback installed by `clone` and
`make_ssh_auth`: `Cred::ssh_key(username_from_url.unwrap(), None, ssh_key_path, None)`.
When libgit2 supplies no username from the URL, the `unwrap()` panics. -/
def sshCredCallback (usernameFromUrl : Option String) (sshKeyPath : String) :
    CallbackOutcome :=
  match usernameFromUrl with
  | some u => .ok (.sshKeyCred u sshKeyPath)
  | none => .panicked

/-! ## Mutex acquisition traces of `get_env` and `get_env_listing`
(`src/main.rs`) -/

/-- Lock and unlock events on the two mutexes of `ServerState`: the cache
mutex (either cache) and the workspace (`config_dir`) mutex. -/
inductive LockEv
  | lockCache
  | unlockCache
  | lockRepo
  | unlockRepo
deriving DecidableEq

/-- Lock-event trace of one execution of `get_env` (`src/main.rs`).  The
cache guard is taken first and, being a local of the whole function body, is
dropped only on return.  On a miss (`hit = false`) the workspace mutex is
acquired by `repo.lock()` inside the `else` branch while the cache guard is
still live; the workspace guard is dropped at the end of the `match`
statement (or at an early `return`), in both cases before the cache guard.
The booleans select the branch taken: whether the cache lock call succeeds,
whether the initial lookup hits, and whether the workspace lock call
succeeds.  The remaining branches (refresh outcome, environment found or
not) do not change which lock events occur. -/
def getEnvTrace (cacheLockOk hit repoLockOk : Bool) : List LockEv :=
  if cacheLockOk then
    [.lockCache] ++
      (if hit then [] else if repoLockOk then [.lockRepo, .unlockRepo] else []) ++
      [.unlockCache]
  else []

/-- Lock-event trace of one execution of `get_env_listing` (`src/main.rs`);
the locking structure is identical to `get_env`: cache guard for the whole
body, workspace guard nested inside the miss branch. -/
def getEnvListingTrace (cacheLockOk hit repoLockOk : Bool) : List LockEv :=
  if cacheLockOk then
    [.lockCache] ++
      (if hit then [] else if repoLockOk then [.lockRepo, .unlockRepo] else []) ++
      [.unlockCache]
  else []

/-- Scans a trace with the current hold state of the two mutexes and
reports whether both are ever held at the same time. -/
def bothHeldAux : Bool → Bool → List LockEv → Bool
  | _, _, [] => false
  | c, r, ev :: rest =>
    let c' := match ev with
      | .lockCache => true
      | .unlockCache => false
      | _ => c
    let r' := match ev with
      | .lockRepo => true
      | .unlockRepo => false
      | _ => r
    (c' && r') || bothHeldAux c' r' rest

/-- A trace holds both mutexes simultaneously at some point. -/
def bothHeldSomewhere (t : List LockEv) : Bool :=
  bothHeldAux false false t

/-- Scans a trace and checks the locking discipline: the cache mutex is
only acquired when neither mutex is held, the workspace mutex is only
acquired while the cache mutex is held (and not already held itself), the
workspace mutex is released before the cache mutex, and no mutex is
released when it is not held. -/
def lockOrderAux : Bool → Bool → List LockEv → Bool
  | _, _, [] => true
  | c, r, ev :: rest =>
    let step := match ev with
      | .lockCache => !c && !r
      | .lockRepo => c && !r
      | .unlockRepo => r
      | .unlockCache => c && !r
    let c' := match ev with
      | .lockCache => true
      | .unlockCache => false
      | _ => c
    let r' := match ev with
      | .lockRepo => true
      | .unlockRepo => false
      | _ => r
    step && lockOrderAux c' r' rest

/-- A trace respects the cache-then-workspace acquisition order. -/
def lockOrderOk (t : List LockEv) : Bool :=
  lockOrderAux false false t

/-! ## Environment records and the resolver lookup (`get_env` in
`src/main.rs`) -/

/-- Embedding of `hogan::config::Environment` as used by `src/main.rs`: a
name, an optional type, and the merged config document (kept opaque as a
string, its contents are never inspected by the code under study). -/
structure Environment where
  environment : String
  environmentType : Option String
  configData : String
deriving DecidableEq

/-- Embedding of the environment lookup in the miss path of `get_env`
(`src/main.rs`): `repo.find(regex).iter().find(|e| e.environment == env)`
over the list of environments discovered at the commit. -/
def findEnvironment (envs : List Environment) (env : String) : Option Environment :=
  envs.find? (fun e => e.environment == env)

/-- Projection `EnvDescription` from `src/main.rs`: name and optional type
of an environment. -/
structure EnvDescription where
  name : String
  envType : Option String
deriving DecidableEq

/-- Embedding of `format_envs` (`src/main.rs`): project every discovered
environment to its description. -/
def formatEnvs (envs : List Environment) : List EnvDescription :=
  envs.map (fun e => ⟨e.environment, e.environmentType⟩)

/-! ## Git workspace model (`src/git.rs`) -/

/-- Error kinds of `HoganError` relevant to the embedded operations. -/
inductive HoganErr
  | unknownSHA (sha : String)
  | fetchFailure
  | unknownBranch (branch : String)
  | gitError
deriving DecidableEq

/-- State of the local clone that `reset`, `fetch` and `detach_head`
manipulate: the commit HEAD points at and the set of commits resolvable
locally. -/
structure GitRepo where
  head : String
  localShas : List String
deriving DecidableEq

/-- The remote as seen by a fetch attempt: whether the transfer succeeds
and which commits it makes available locally. -/
structure RemoteState where
  fetchOk : Bool
  remoteShas : List String
deriving DecidableEq

/-- Embedding of `fetch` (`src/git.rs`) at the level of repository state: a
successful fetch makes the remote's commits locally resolvable and never
moves HEAD; a failed transfer surfaces as a fetch error. -/
def fetchModel (repo : GitRepo) (r : RemoteState) : Except HoganErr GitRepo :=
  if r.fetchOk then
    .ok { repo with localShas := repo.localShas ++ r.remoteShas }
  else
    .error .fetchFailure

/-- Embedding of `detach_head` (`src/git.rs`): `revparse_single` succeeds
exactly when the commit is locally resolvable, and only then is the hard
reset performed, moving HEAD; otherwise the function fails with
`UnknownSHA` without touching the repository. -/
def detachHead (repo : GitRepo) (sha : String) : Except HoganErr GitRepo :=
  if sha ∈ repo.localShas then
    .ok { repo with head := sha }
  else
    .error (.unknownSHA sha)

/-- Embedding of `get_head_sha` (`src/git.rs`): the first seven characters
of the commit HEAD points at. -/
def getHeadSha (repo : GitRepo) : String :=
  ⟨repo.head.data.take 7⟩

/-- Everything observable about one `reset` call: its returned value, the
repository state it leaves behind, and how many fetches, head-detach
attempts and hard resets it performed. -/
structure ResetOutcome where
  result : Except HoganErr String
  repo : GitRepo
  fetches : Nat
  detaches : Nat
  resets : Nat

/-- The part of `reset` (`src/git.rs`) after the optional initial refresh:
the detach-fetch-retry block followed by `get_head_sha`.  `f1` is the
number of fetches already performed by the initial refresh. -/
def resetDetachPhase (repo1 : GitRepo) (r : RemoteState) (sha : Option String)
    (allowFetch : Bool) (f1 : Nat) : ResetOutcome :=
  match sha with
  | none => ⟨.ok (getHeadSha repo1), repo1, f1, 0, 0⟩
  | some s =>
    match detachHead repo1 s with
    | .ok repo2 => ⟨.ok (getHeadSha repo2), repo2, f1, 1, 1⟩
    | .error _ =>
      if allowFetch then
        match fetchModel repo1 r with
        | .error e => ⟨.error e, repo1, f1 + 1, 1, 0⟩
        | .ok repo2 =>
          match detachHead repo2 s with
          | .ok repo3 => ⟨.ok (getHeadSha repo3), repo3, f1 + 1, 2, 1⟩
          | .error e2 => ⟨.error e2, repo2, f1 + 1, 2, 0⟩
      else
        ⟨.error (.unknownSHA s), repo1, f1, 1, 0⟩

/-- Embedding of `reset` (`src/git.rs`), the implementation of the design's
`Checkout`.  If `forceRefresh && allowFetch`, an initial fetch runs first
(propagating its failure).  Then, for a requested commit, `detach_head` is
attempted; on failure, if `allowFetch` a single fetch-then-retry runs,
returning the retry's `UnknownSHA` error if the commit is still absent,
while without `allowFetch` the call fails with `UnknownSHA` immediately.
On success the resolved seven-character head identifier is returned.
A hard reset is counted exactly when a `detach_head` attempt succeeds. -/
def resetModel (repo0 : GitRepo) (r : RemoteState) (sha : Option String)
    (forceRefresh allowFetch : Bool) : ResetOutcome :=
  if forceRefresh && allowFetch then
    match fetchModel repo0 r with
    | .error e => ⟨.error e, repo0, 1, 0, 0⟩
    | .ok repo1 => resetDetachPhase repo1 r sha allowFetch 1
  else
    resetDetachPhase repo0 r sha allowFetch 0

/-- Tests whether an `Except` value is an error. -/
def isErr : Except HoganErr α → Bool
  | .error _ => true
  | .ok _ => false

/-! ## Branch head resolution (`find_branch_head`, `find_ref_sha` in
`src/git.rs`) -/

/-- A resolved git reference as `find_ref_sha` sees it: its optional direct
target, the commit's full hexadecimal object identifier. -/
structure RefModel where
  target : Option String
deriving DecidableEq

/-- Embedding of `find_ref_sha` (`src/git.rs`): the first seven characters
of the target's hexadecimal identifier when the reference has a direct
target, a git error otherwise. -/
def findRefSha (ref : RefModel) : Except HoganErr String :=
  match ref.target with
  | some oid => .ok ⟨oid.data.take 7⟩
  | none => .error .gitError

/-- Embedding of `find_branch_head` (`src/git.rs`): resolve the short
branch name (`resolve_reference_from_short_name`, modelled as an oracle
from branch names to optional references); a failed resolution becomes
`UnknownBranch`, a resolved reference is passed to `find_ref_sha`. -/
def findBranchHead (resolveRef : String → Option RefModel) (branch : String) :
    Except HoganErr String :=
  match resolveRef branch with
  | some ref => findRefSha ref
  | none => .error (.unknownBranch branch)

/-- A concrete reference-resolution oracle used by witnesses: one branch
`main` whose reference targets a forty-character commit identifier. -/
def exampleResolve : String → Option RefModel := fun b =>
  if b = "main" then some ⟨some "0123456789abcdef0123456789abcdef01234567"⟩
  else none

/-! ## Bounded LRU cache.

Modelled from the spec: the caches of `ServerState` (`src/main.rs`) are
`lru_time_cache::LruCache` values created with `with_capacity(cache_size)`;
that crate is not part of this repository's sources, so the cache is
modelled from the design document's cache section: a fixed-capacity map
whose recency is updated on every successful read and on every insert, and
which, on insert when full, drops the least recently touched entry.
Entries are kept in recency order, most recent first. -/

/-- A bounded least-recently-used cache with string keys.  `entries` is
ordered most recently touched first. -/
structure Lru (α : Type) where
  capacity : Nat
  entries : List (String × α)

/-- The empty cache at a given capacity, as created at server startup. -/
def Lru.mkEmpty (α : Type) (cap : Nat) : Lru α :=
  ⟨cap, []⟩

/-- Modelled from the spec: a cache read.  On a hit the value is returned
and the entry moves to the front (most recent); a miss changes nothing. -/
def Lru.lookup {α : Type} (c : Lru α) (k : String) : Option α × Lru α :=
  match c.entries.find? (fun e => e.1 == k) with
  | some e =>
    (some e.2, ⟨c.capacity, (k, e.2) :: c.entries.filter (fun e => !(e.1 == k))⟩)
  | none => (none, c)

/-- Modelled from the spec: a cache insert.  The new entry becomes the most
recent; any previous entry under the same key is replaced; when the cache
would exceed its capacity the least recently touched entry is dropped. -/
def Lru.insert {α : Type} (c : Lru α) (k : String) (v : α) : Lru α :=
  ⟨c.capacity, ((k, v) :: c.entries.filter (fun e => !(e.1 == k))).take c.capacity⟩

/-- The keys currently present, most recently touched first. -/
def keysOf {α : Type} (c : Lru α) : List String :=
  c.entries.map Prod.fst

/-- One client-visible cache operation: a lookup or an insert. -/
inductive CacheOp (α : Type)
  | lookupOp (k : String)
  | insertOp (k : String) (v : α)

/-- Forgets the inserted values of an operation sequence. -/
def stripOp {α : Type} : CacheOp α → CacheOp Unit
  | .lookupOp k => .lookupOp k
  | .insertOp k _ => .insertOp k ()

/-- Runs a sequence of cache operations. -/
def runOps {α : Type} (c : Lru α) : List (CacheOp α) → Lru α
  | [] => c
  | .lookupOp k :: ops => runOps (c.lookup k).2 ops
  | .insertOp k v :: ops => runOps (c.insert k v) ops

/-- Runs the same sequence of operations on an instrumented cache whose
values record the time (operation index) at which each entry was last
touched by a successful read or an insert. -/
def runTimed (t : Nat) (c : Lru Nat) : List (CacheOp Unit) → Lru Nat
  | [] => c
  | .lookupOp k :: ops =>
    if ((c.lookup k).1).isSome then runTimed (t + 1) (c.insert k t) ops
    else runTimed (t + 1) c ops
  | .insertOp k _ :: ops => runTimed (t + 1) (c.insert k t) ops

/-- The entry of an instrumented cache with the smallest last-touch time,
independent of entry order: the least recently touched entry. -/
def minByTime : List (String × Nat) → Option (String × Nat)
  | [] => none
  | p :: rest =>
    match minByTime rest with
    | none => some p
    | some q => if q.2 < p.2 then some q else some p

/-- A concrete operation sequence used by the cache witness: fill a
two-entry cache with `a` then `b`, then touch `a` by a hit. -/
def lruOpsEx : List (CacheOp Nat) :=
  [.insertOp "a" 0, .insertOp "b" 0, .lookupOp "a"]

/-- Coupling invariant between a running cache and its time-instrumented
shadow: same capacity and same keys in the same recency order, the entry
count stays within capacity, and the shadow's last-touch times decrease
strictly from front to back and lie below the current clock. -/
structure LruInv {α : Type} (c : Lru α) (ct : Lru Nat) (t : Nat) : Prop where
  caps : c.capacity = ct.capacity
  sameKeys : keysOf c = keysOf ct
  bound : c.entries.length ≤ c.capacity
  sortedTimes : List.Sorted (· > ·) (ct.entries.map Prod.snd)
  timesBelow : ∀ x ∈ ct.entries.map Prod.snd, x < t

/-! ## Listing resolution (`get_env_listing` in `src/main.rs`) -/

/-- Embedding of `get_env_listing` (`src/main.rs`) with the workspace
interaction abstracted into two oracle results: `refreshResult` is what
`repo.refresh(remote, Some(sha))` returns and `foundEnvs` is what
`repo.find(environments_regex)` discovers at the commit.  The function
normalises the commit identifier, consults the listing cache, and on a
miss refreshes the workspace; a non-empty listing is inserted and then
re-read from the cache, an empty listing returns `None` without touching
the cache, and a failed refresh falls through to a final cache read. -/
def getEnvListingModel (cache : Lru (List EnvDescription)) (shaInput : String)
    (refreshResult : Option String) (foundEnvs : List Environment) :
    Option (List EnvDescription) × Lru (List EnvDescription) :=
  let sha := formatShaS shaInput
  match cache.lookup sha with
  | (some v, c1) => (some v, c1)
  | (none, c1) =>
    match refreshResult with
    | some _ =>
      let envs := formatEnvs foundEnvs
      if envs.isEmpty then (none, c1)
      else
        let c2 := c1.insert sha envs
        match c2.lookup sha with
        | (some v, c3) => (some v, c3)
        | (none, c3) => (none, c3)
    | none =>
      match c1.lookup sha with
      | (some v, c2) => (some v, c2)
      | (none, c2) => (none, c2)

end Hogan

namespace Hogan

/-! ## Theorems -/

/-- C1: for every input string of length at least seven, both cache keys
derived from it coincide with the keys derived from its first seven
characters; every shorter input passes through `format_sha` unchanged. -/
theorem formatSha_truncation (s env : List Char) :
    (7 ≤ s.length →
      envCacheKey s env = envCacheKey (s.take 7) env ∧
      listingCacheKey s = listingCacheKey (s.take 7)) ∧
    (s.length < 7 → formatSha s = s) := by
  constructor
  · intro h7
    have hlen : (s.take 7).length = 7 := by
      simp [List.length_take, Nat.min_eq_left h7]
    have hfs : formatSha s = s.take 7 := by
      simp [formatSha, h7]
    have hfs7 : formatSha (s.take 7) = s.take 7 := by
      simp [formatSha, hlen, List.take_take]
    constructor
    · simp [envCacheKey, formatKey, hfs, hfs7]
    · simp [listingCacheKey, hfs, hfs7]
  · intro hlt
    simp [formatSha, Nat.not_le.mpr hlt]

/-- Witness for C1 at the concrete commit identifier `abcdef01` (length 8)
and at the short input `abc` (length 3). -/
theorem formatSha_truncation_witness :
    (envCacheKey "abcdef01".data "TEST".data =
        envCacheKey ("abcdef01".data.take 7) "TEST".data ∧
      listingCacheKey "abcdef01".data =
        listingCacheKey ("abcdef01".data.take 7)) ∧
    formatSha "abc".data = "abc".data :=
  ⟨(formatSha_truncation "abcdef01".data "TEST".data).1 (by decide),
   (formatSha_truncation "abc".data "TEST".data).2 (by decide)⟩

/-- C2 counterexample: for a URL that carries a password while an SSH key
is also configured, `clone` selects password auth but `fetch` selects SSH
key auth, so fetch does not follow the clone rule and does not use the
password. -/
theorem fetch_clone_cred_counterexample :
    fetchCredSelection (some "/home/u/.ssh/id_rsa") (some ⟨some "hunter2"⟩) ≠
      cloneCredSelection (some "hunter2") (some "/home/u/.ssh/id_rsa") ∧
    cloneCredSelection (some "hunter2") (some "/home/u/.ssh/id_rsa") =
      .password "hunter2" ∧
    fetchCredSelection (some "/home/u/.ssh/id_rsa") (some ⟨some "hunter2"⟩) =
      .sshKey "/home/u/.ssh/id_rsa" := by
  refine ⟨?_, rfl, rfl⟩
  simp [fetchCredSelection, cloneCredSelection, makePasswordAuth]

/-- C2 amended: `clone` prefers the URL password over a configured SSH key,
while `fetch` prefers the SSH key over the URL password.  Consequently the
two operations select the same credentials exactly when a password and an
SSH key are not both configured. -/
theorem fetch_clone_cred_agreement (pw key : Option String) :
    fetchCredSelection key (some ⟨pw⟩) = cloneCredSelection pw key ↔
      (pw = none ∨ key = none) := by
  cases pw <;> cases key <;>
    simp [fetchCredSelection, cloneCredSelection, makePasswordAuth]

/-- C3 counterexample: the miss path of `get_env` (and of
`get_env_listing`) acquires the workspace mutex while the cache mutex is
still held, so there is an execution in which both mutexes are held
simultaneously. -/
theorem both_mutexes_held_counterexample :
    bothHeldSomewhere (getEnvTrace true false true) = true ∧
    bothHeldSomewhere (getEnvListingTrace true false true) = true := by
  decide

/-- C3 amended: in every execution of `get_env` and `get_env_listing` the
miss path keeps holding the cache mutex while it acquires and releases the
workspace mutex; the acquisition order is always cache first, then
workspace, and the workspace mutex is released before the cache mutex, so
the two mutexes cannot deadlock against each other. -/
theorem lock_order_discipline (a b c : Bool) :
    lockOrderOk (getEnvTrace a b c) = true ∧
    lockOrderOk (getEnvListingTrace a b c) = true := by
  revert a b c
  decide

/-- C10: whenever the URL supplies no username, the credential callbacks
installed for password-in-URL auth and for SSH-key auth both panic (the
`unwrap()` of the `None` username), instead of producing a credential or a
`CloneFailure`/`FetchFailure` error; with a username present they produce
the corresponding credential. -/
theorem cred_callback_panics_without_username (pw keyPath user : String) :
    passwordCredCallback none pw = .panicked ∧
    sshCredCallback none keyPath = .panicked ∧
    passwordCredCallback (some user) pw = .ok (.userpassPlaintext user pw) ∧
    sshCredCallback (some user) keyPath = .ok (.sshKeyCred user keyPath) :=
  ⟨rfl, rfl, rfl, rfl⟩

/-- C4 counterexample: with two distinct discovered config records that
yield the same environment name `A`, the resolver lookup of `get_env`
silently returns the first of the duplicates instead of failing. -/
theorem duplicate_env_counterexample :
    findEnvironment
        [⟨"A", none, "from-dir-one"⟩, ⟨"A", none, "from-dir-two"⟩] "A" =
      some ⟨"A", none, "from-dir-one"⟩ ∧
    (⟨"A", none, "from-dir-one"⟩ : Environment) ≠ ⟨"A", none, "from-dir-two"⟩ := by
  constructor
  · rfl
  · decide

/-- C4 amended: the resolver lookup returns the first discovered
environment carrying the requested name, regardless of any later
duplicates; no `AmbiguousEnvironment` failure exists on this path. -/
theorem findEnvironment_first_match (pre rest : List Environment)
    (e : Environment) (name : String)
    (hpre : ∀ x ∈ pre, x.environment ≠ name) (he : e.environment = name) :
    findEnvironment (pre ++ e :: rest) name = some e := by
  induction pre with
  | nil => simp [findEnvironment, List.find?_cons_of_pos, he]
  | cons x xs ih =>
    have hx : (x.environment == name) = false := by
      simp [hpre x (List.mem_cons_self x xs)]
    have ihs : findEnvironment (xs ++ e :: rest) name = some e :=
      ih (fun y hy => hpre y (List.mem_cons_of_mem x hy))
    simpa [findEnvironment, List.cons_append, List.find?_cons_of_neg, hx] using ihs

/-- Witness for C4's amended statement: a duplicate of `A` after the first
occurrence does not disturb the lookup. -/
theorem findEnvironment_first_match_witness :
    findEnvironment
        [⟨"B", none, "b"⟩, ⟨"A", none, "first"⟩, ⟨"A", none, "second"⟩] "A" =
      some ⟨"A", none, "first"⟩ :=
  findEnvironment_first_match [⟨"B", none, "b"⟩] [⟨"A", none, "second"⟩]
    ⟨"A", none, "first"⟩ "A" (by decide) rfl

/-- C5 counterexample: a `reset` call with `allow_fetch = true` for a
commit absent locally performs two fetches when the periodic
`force_refresh` flag is set — the forced initial fetch plus the
fetch-before-retry — not exactly one. -/
theorem checkout_double_fetch_counterexample :
    "1234567" ∉ (GitRepo.mk "abcdef0" ["abcdef0"]).localShas ∧
    (resetModel ⟨"abcdef0", ["abcdef0"]⟩ ⟨true, []⟩ (some "1234567")
        true true).fetches = 2 := by
  constructor
  · decide
  · rfl

/-- C5 amended: when the periodic force-refresh is not triggered, a
checkout of a locally absent commit with `allow_fetch = true` performs
exactly one fetch and at most one retry; if the fetch succeeds and the
commit is still absent afterwards, the call fails with the unknown-commit
error after exactly two detach attempts (one initial try plus one retry)
and still only one fetch.  With force-refresh set, a second fetch may
precede the first attempt. -/
theorem checkout_single_fetch_retry (repo : GitRepo) (r : RemoteState)
    (c : String) (habs : c ∉ repo.localShas) :
    (resetModel repo r (some c) false true).fetches = 1 ∧
    (resetModel repo r (some c) false true).detaches ≤ 2 ∧
    (r.fetchOk = true → c ∉ r.remoteShas →
      (resetModel repo r (some c) false true).result = .error (.unknownSHA c) ∧
      (resetModel repo r (some c) false true).detaches = 2) := by
  have hd1 : detachHead repo c = .error (.unknownSHA c) := by
    simp [detachHead, habs]
  by_cases hf : r.fetchOk = true
  · have hfetch : fetchModel repo r =
        .ok { repo with localShas := repo.localShas ++ r.remoteShas } := by
      simp [fetchModel, hf]
    by_cases hrem : c ∈ r.remoteShas
    · have hd2 : detachHead { repo with localShas := repo.localShas ++ r.remoteShas } c =
          .ok { repo with localShas := repo.localShas ++ r.remoteShas, head := c } := by
        simp [detachHead, List.mem_append, hrem]
      refine ⟨?_, ?_, ?_⟩ <;>
        simp [resetModel, resetDetachPhase, hd1, hfetch, hd2, hrem]
    · have hd2 : detachHead { repo with localShas := repo.localShas ++ r.remoteShas } c =
          .error (.unknownSHA c) := by
        simp [detachHead, List.mem_append, habs, hrem]
      refine ⟨?_, ?_, ?_⟩ <;>
        simp [resetModel, resetDetachPhase, hd1, hfetch, hd2]
  · have hfetch : fetchModel repo r = .error .fetchFailure := by
      simp [fetchModel, hf]
    refine ⟨?_, ?_, ?_⟩ <;>
      simp [resetModel, resetDetachPhase, hd1, hfetch, hf]

/-- Witness for C5's amended statement: commit `1234567` is absent locally
and on the remote; the call fetches once, retries once and fails with the
unknown-commit error. -/
theorem checkout_single_fetch_retry_witness :
    (resetModel ⟨"abcdef0", ["abcdef0"]⟩ ⟨true, ["fedcba9"]⟩ (some "1234567")
        false true).fetches = 1 ∧
    (resetModel ⟨"abcdef0", ["abcdef0"]⟩ ⟨true, ["fedcba9"]⟩ (some "1234567")
        false true).detaches ≤ 2 ∧
    (resetModel ⟨"abcdef0", ["abcdef0"]⟩ ⟨true, ["fedcba9"]⟩ (some "1234567")
        false true).result = .error (.unknownSHA "1234567") ∧
    (resetModel ⟨"abcdef0", ["abcdef0"]⟩ ⟨true, ["fedcba9"]⟩ (some "1234567")
        false true).detaches = 2 := by
  have h := checkout_single_fetch_retry ⟨"abcdef0", ["abcdef0"]⟩
    ⟨true, ["fedcba9"]⟩ "1234567" (by decide)
  exact ⟨h.1, h.2.1, (h.2.2 rfl (by decide)).1, (h.2.2 rfl (by decide)).2⟩

/-- The detach-fetch-retry phase of `reset` leaves HEAD where it was and
performs no hard reset whenever it returns an error. -/
theorem resetDetachPhase_error_head (repo1 : GitRepo) (r : RemoteState)
    (sha : Option String) (af : Bool) (f1 : Nat)
    (hfail : isErr (resetDetachPhase repo1 r sha af f1).result = true) :
    (resetDetachPhase repo1 r sha af f1).repo.head = repo1.head ∧
    (resetDetachPhase repo1 r sha af f1).resets = 0 := by
  match sha with
  | none => simp [resetDetachPhase, isErr] at hfail
  | some s =>
    by_cases hs : s ∈ repo1.localShas
    · have hd : detachHead repo1 s = .ok { repo1 with head := s } := by
        simp [detachHead, hs]
      simp [resetDetachPhase, hd, isErr] at hfail
    · have hd : detachHead repo1 s = .error (.unknownSHA s) := by
        simp [detachHead, hs]
      cases af with
      | false => simp [resetDetachPhase, hd]
      | true =>
        by_cases hf : r.fetchOk = true
        · have hfetch : fetchModel repo1 r =
              .ok ⟨repo1.head, repo1.localShas ++ r.remoteShas⟩ := by
            simp [fetchModel, hf]
          by_cases hs2 : s ∈ repo1.localShas ++ r.remoteShas
          · have hd2 : detachHead (⟨repo1.head, repo1.localShas ++ r.remoteShas⟩ :
                GitRepo) s = .ok ⟨s, repo1.localShas ++ r.remoteShas⟩ := by
              simp only [detachHead]
              rw [if_pos hs2]
            simp [resetDetachPhase, hd, hfetch, hd2, isErr] at hfail
          · have hd2 : detachHead (⟨repo1.head, repo1.localShas ++ r.remoteShas⟩ :
                GitRepo) s = .error (.unknownSHA s) := by
              simp only [detachHead]
              rw [if_neg hs2]
            simp [resetDetachPhase, hd, hfetch, hd2]
        · have hfetch : fetchModel repo1 r = .error .fetchFailure := by
            simp [fetchModel, hf]
          simp [resetDetachPhase, hd, hfetch]

/-- C6: every failing `reset` call leaves the workspace HEAD exactly where
it was before the call and performs no hard reset at all. -/
theorem checkout_failure_preserves_head (repo : GitRepo) (r : RemoteState)
    (sha : Option String) (forceRefresh allowFetch : Bool)
    (hfail : isErr (resetModel repo r sha forceRefresh allowFetch).result = true) :
    (resetModel repo r sha forceRefresh allowFetch).repo.head = repo.head ∧
    (resetModel repo r sha forceRefresh allowFetch).resets = 0 := by
  by_cases hinit : (forceRefresh && allowFetch) = true
  · by_cases hf : r.fetchOk = true
    · have hfetch : fetchModel repo r =
          .ok { repo with localShas := repo.localShas ++ r.remoteShas } := by
        simp [fetchModel, hf]
      have hfail2 : isErr (resetDetachPhase
          { repo with localShas := repo.localShas ++ r.remoteShas }
          r sha allowFetch 1).result = true := by
        simpa [resetModel, hinit, hfetch] using hfail
      have h := resetDetachPhase_error_head
        { repo with localShas := repo.localShas ++ r.remoteShas }
        r sha allowFetch 1 hfail2
      simpa [resetModel, hinit, hfetch] using h
    · have hfetch : fetchModel repo r = .error .fetchFailure := by
        simp [fetchModel, hf]
      simp [resetModel, hinit, hfetch]
  · have hfail2 : isErr (resetDetachPhase repo r sha allowFetch 0).result = true := by
      simpa [resetModel, hinit] using hfail
    have h := resetDetachPhase_error_head repo r sha allowFetch 0 hfail2
    simpa [resetModel, hinit] using h

/-- Witness for C6: a checkout of the absent commit `1234567` with fetching
disallowed fails and leaves HEAD at `abcdef0` with no reset performed. -/
theorem checkout_failure_preserves_head_witness :
    isErr (resetModel ⟨"abcdef0", ["abcdef0"]⟩ ⟨false, []⟩ (some "1234567")
        false false).result = true ∧
    (resetModel ⟨"abcdef0", ["abcdef0"]⟩ ⟨false, []⟩ (some "1234567")
        false false).repo.head = "abcdef0" ∧
    (resetModel ⟨"abcdef0", ["abcdef0"]⟩ ⟨false, []⟩ (some "1234567")
        false false).resets = 0 := by
  have h := checkout_failure_preserves_head ⟨"abcdef0", ["abcdef0"]⟩ ⟨false, []⟩
    (some "1234567") false false (by rfl)
  exact ⟨by rfl, h.1, h.2⟩

/-- C9: under the reference-resolution oracle, a branch name that resolves
to a reference with a direct commit target yields exactly the first seven
characters of the commit's hexadecimal identifier, and a branch name that
does not resolve fails with the unknown-branch error. -/
theorem find_branch_head_resolution (resolveRef : String → Option RefModel)
    (branch oid : String) :
    (resolveRef branch = some ⟨some oid⟩ →
      findBranchHead resolveRef branch = .ok ⟨oid.data.take 7⟩) ∧
    (resolveRef branch = none →
      findBranchHead resolveRef branch = .error (.unknownBranch branch)) := by
  constructor <;> intro h <;> simp [findBranchHead, h, findRefSha]

/-- Witness for C9: branch `main` resolves to the example forty-character
identifier and yields its first seven characters; branch `gone` does not
resolve and yields the unknown-branch error. -/
theorem find_branch_head_resolution_witness :
    findBranchHead exampleResolve "main" = .ok "0123456" ∧
    findBranchHead exampleResolve "gone" = .error (.unknownBranch "gone") := by
  constructor
  · have h := (find_branch_head_resolution exampleResolve "main"
      "0123456789abcdef0123456789abcdef01234567").1 (by rfl)
    exact h
  · exact (find_branch_head_resolution exampleResolve "gone" "").2 (by rfl)

/-- A cache read that misses returns the cache unchanged. -/
theorem lookup_fst_none {α : Type} (c : Lru α) (k : String)
    (h : (c.lookup k).1 = none) : c.lookup k = (none, c) := by
  unfold Lru.lookup at h ⊢
  cases hf : c.entries.find? (fun e => e.1 == k) with
  | none => rfl
  | some e => rw [hf] at h; simp at h

/-- C7: a listing request that misses the cache and whose loader run
discovers no environments returns nothing and leaves the listing cache
exactly as it was - no entry is inserted. -/
theorem listing_empty_not_cached (cache : Lru (List EnvDescription))
    (shaInput s : String)
    (hmiss : (cache.lookup (formatShaS shaInput)).1 = none) :
    getEnvListingModel cache shaInput (some s) [] = (none, cache) := by
  have h := lookup_fst_none cache (formatShaS shaInput) hmiss
  simp [getEnvListingModel, h, formatEnvs]

/-- Witness for C7: commit `deadbeef0` is looked up in an empty
two-capacity cache, the loader finds nothing, and the cache stays empty. -/
theorem listing_empty_not_cached_witness :
    getEnvListingModel (Lru.mkEmpty (List EnvDescription) 2) "deadbeef0"
        (some "deadbee") [] =
      (none, Lru.mkEmpty (List EnvDescription) 2) :=
  listing_empty_not_cached (Lru.mkEmpty (List EnvDescription) 2) "deadbeef0"
    "deadbee" rfl

/-- Mapping first components commutes with filtering away a key. -/
theorem map_fst_filter_key {α : Type} (l : List (String × α)) (k : String) :
    (l.filter (fun e => !(e.1 == k))).map Prod.fst =
      (l.map Prod.fst).filter (fun j => !(j == k)) := by
  induction l with
  | nil => rfl
  | cons x xs ih =>
    cases hx : (x.1 == k) <;> simp [List.filter_cons, hx, ih]

/-- Keys after an insert: the inserted key moves to the front, any old
occurrence disappears, and the tail is truncated to capacity. -/
theorem keysOf_insert {α : Type} (c : Lru α) (k : String) (v : α) :
    keysOf (c.insert k v) =
      (k :: (keysOf c).filter (fun j => !(j == k))).take c.capacity := by
  simp [Lru.insert, keysOf, map_fst_filter_key]

/-- Keys after a hit: the key moves to the front of the recency order. -/
theorem keysOf_lookup_hit {α : Type} (c : Lru α) (k : String) (e : String × α)
    (hf : c.entries.find? (fun e => e.1 == k) = some e) :
    keysOf (c.lookup k).2 = k :: (keysOf c).filter (fun j => !(j == k)) := by
  simp [Lru.lookup, hf, keysOf, map_fst_filter_key]

/-- When a key is present, filtering it away strictly shrinks the list. -/
theorem length_filter_lt_of_find? {α : Type} (l : List (String × α)) (k : String)
    (e : String × α) (hf : l.find? (fun e => e.1 == k) = some e) :
    (l.filter (fun e => !(e.1 == k))).length < l.length := by
  apply List.length_filter_lt_length_iff_exists.mpr
  exact ⟨e, List.mem_of_find?_eq_some hf, by simp [List.find?_some hf]⟩

/-- A lookup hits exactly when the key is present. -/
theorem lookup_isSome_iff {α : Type} (c : Lru α) (k : String) :
    ((c.lookup k).1).isSome = true ↔ k ∈ keysOf c := by
  unfold Lru.lookup
  cases hf : c.entries.find? (fun e => e.1 == k) with
  | some e =>
    simp only [Option.isSome_some, true_iff]
    have h1 : e.1 = k := by simpa using List.find?_some hf
    have h2 : e ∈ c.entries := List.mem_of_find?_eq_some hf
    exact h1 ▸ List.mem_map_of_mem Prod.fst h2
  | none =>
    simp only [Option.isSome_none, Bool.false_eq_true, false_iff, keysOf]
    intro hk
    rw [List.find?_eq_none] at hf
    obtain ⟨e, hem, hefst⟩ := List.mem_map.mp hk
    exact hf e hem (by simp [hefst])

/-- Inserting at the current time keeps the instrumented times strictly
decreasing and below the advanced clock. -/
theorem timed_insert_sorted (ct : Lru Nat) (t : Nat) (k : String)
    (hs : List.Sorted (· > ·) (ct.entries.map Prod.snd))
    (hb : ∀ x ∈ ct.entries.map Prod.snd, x < t) :
    List.Sorted (· > ·) ((ct.insert k t).entries.map Prod.snd) ∧
    ∀ x ∈ (ct.insert k t).entries.map Prod.snd, x < t + 1 := by
  have hsub : List.Sublist (ct.entries.filter (fun e => !(e.1 == k))) ct.entries :=
    List.filter_sublist _
  have hsubt : List.Sublist
      ((ct.entries.filter (fun e => !(e.1 == k))).map Prod.snd)
      (ct.entries.map Prod.snd) := hsub.map _
  have hcons : List.Sorted (· > ·)
      (t :: (ct.entries.filter (fun e => !(e.1 == k))).map Prod.snd) := by
    rw [List.sorted_cons]
    exact ⟨fun b hb' => hb b (hsubt.subset hb'), hs.sublist hsubt⟩
  have htimes : (ct.insert k t).entries.map Prod.snd =
      (t :: (ct.entries.filter (fun e => !(e.1 == k))).map Prod.snd).take
        ct.capacity := by
    simp [Lru.insert]
  constructor
  · rw [htimes]
    exact hcons.sublist (List.take_sublist _ _)
  · intro x hx
    rw [htimes] at hx
    have hx' := (List.take_sublist _ _).subset hx
    rcases List.mem_cons.mp hx' with h | h
    · omega
    · exact Nat.lt_succ_of_lt (hb x (hsubt.subset h))

/-- An insert preserves the coupling invariant. -/
theorem lruInv_insert {α : Type} {c : Lru α} {ct : Lru Nat} {t : Nat}
    (h : LruInv c ct t) (k : String) (v : α) :
    LruInv (c.insert k v) (ct.insert k t) (t + 1) := by
  obtain ⟨hcap, hkeys, hbound, hs, hb⟩ := h
  have hts := timed_insert_sorted ct t k hs hb
  refine ⟨hcap, ?_, ?_, hts.1, hts.2⟩
  · rw [keysOf_insert, keysOf_insert, hkeys, hcap]
  · simp [Lru.insert, List.length_take]

/-- A lookup preserves the coupling invariant, with the instrumented cache
re-inserting the key at the current time on a hit. -/
theorem lruInv_lookup {α : Type} {c : Lru α} {ct : Lru Nat} {t : Nat}
    (h : LruInv c ct t) (k : String) :
    LruInv (c.lookup k).2
      (if ((ct.lookup k).1).isSome then ct.insert k t else ct) (t + 1) := by
  obtain ⟨hcap, hkeys, hbound, hs, hb⟩ := h
  by_cases hk : k ∈ keysOf c
  · have hcts : ((ct.lookup k).1).isSome = true :=
      (lookup_isSome_iff ct k).mpr (hkeys ▸ hk)
    cases hf : c.entries.find? (fun e => e.1 == k) with
    | none =>
      exfalso
      have := (lookup_isSome_iff c k).mpr hk
      rw [lookup_fst_none c k (by simp [Lru.lookup, hf])] at this
      simp at this
    | some e =>
      have hts := timed_insert_sorted ct t k hs hb
      have hlt : (c.entries.filter (fun x => !(x.1 == k))).length <
          c.entries.length := length_filter_lt_of_find? c.entries k e hf
      have hklt : ((keysOf c).filter (fun j => !(j == k))).length <
          c.entries.length := by
        simp only [keysOf]
        rw [← map_fst_filter_key, List.length_map]
        exact hlt
      have hlen : (k :: (keysOf c).filter (fun j => !(j == k))).length ≤
          ct.capacity := by
        rw [List.length_cons]
        rw [← hcap]
        omega
      have hcap2 : (c.lookup k).2.capacity = c.capacity := by
        simp [Lru.lookup, hf]
      rw [if_pos hcts]
      refine ⟨hcap2.trans hcap, ?_, ?_, hts.1, hts.2⟩
      · rw [keysOf_lookup_hit c k e hf, keysOf_insert, ← hkeys]
        exact (List.take_of_length_le hlen).symm
      · have hent : (c.lookup k).2.entries =
            (k, e.2) :: c.entries.filter (fun x => !(x.1 == k)) := by
          simp [Lru.lookup, hf]
        rw [hcap2, hent, List.length_cons]
        omega
  · have hcs : ¬ ((c.lookup k).1).isSome = true := fun hcs =>
      hk ((lookup_isSome_iff c k).mp hcs)
    have hcts : ¬ ((ct.lookup k).1).isSome = true := fun hcts =>
      hk (hkeys ▸ (lookup_isSome_iff ct k).mp hcts)
    have h1 : (c.lookup k).1 = none := by
      cases h2 : (c.lookup k).1 with
      | none => rfl
      | some x => exact absurd (by simp [h2]) hcs
    rw [lookup_fst_none c k h1, if_neg hcts]
    exact ⟨hcap, hkeys, hbound, hs, fun x hx => Nat.lt_succ_of_lt (hb x hx)⟩

/-- Running any operation sequence preserves the coupling invariant. -/
theorem lruInv_run {α : Type} (ops : List (CacheOp α)) :
    ∀ (c : Lru α) (ct : Lru Nat) (t : Nat), LruInv c ct t →
      LruInv (runOps c ops) (runTimed t ct (ops.map stripOp)) (t + ops.length) := by
  induction ops with
  | nil => intro c ct t h; simpa [runOps, runTimed] using h
  | cons op ops ih =>
    intro c ct t h
    have harith : t + (op :: ops).length = (t + 1) + ops.length := by
      simp [List.length_cons]
      omega
    rw [harith]
    cases op with
    | lookupOp k =>
      have h' := lruInv_lookup h k
      by_cases hb : ((ct.lookup k).1).isSome = true
      · rw [if_pos hb] at h'
        have h2 := ih _ _ _ h'
        simpa [runOps, runTimed, stripOp, hb] using h2
      · rw [if_neg hb] at h'
        have h2 := ih _ _ _ h'
        simpa [runOps, runTimed, stripOp, hb] using h2
    | insertOp k v =>
      have h' := lruInv_insert h k v
      have h2 := ih _ _ _ h'
      simpa [runOps, runTimed, stripOp] using h2

/-- Running any operation sequence does not change the capacity. -/
theorem capacity_runOps {α : Type} (ops : List (CacheOp α)) :
    ∀ c : Lru α, (runOps c ops).capacity = c.capacity := by
  induction ops with
  | nil => intro c; rfl
  | cons op ops ih =>
    intro c
    cases op with
    | lookupOp k =>
      rw [runOps, ih]
      unfold Lru.lookup
      cases hf : c.entries.find? (fun e => e.1 == k) <;> simp
    | insertOp k v =>
      rw [runOps, ih]
      rfl

/-- Taking exactly the length of the tail from a lengthened list keeps the
head and drops the last element. -/
theorem take_cons_full {β : Type} (a : β) (l : List β) (n : Nat)
    (h : l.length = n) (hn : 0 < n) : (a :: l).take n = a :: l.dropLast := by
  obtain ⟨m, rfl⟩ : ∃ m, n = m + 1 := ⟨n - 1, by omega⟩
  rw [List.take_succ_cons, List.dropLast_eq_take, h]
  simp

/-- Unfolding equation of `minByTime` on a nonempty list. -/
theorem minByTime_cons (p : String × Nat) (rest : List (String × Nat)) :
    minByTime (p :: rest) =
      match minByTime rest with
      | none => some p
      | some b => if b.2 < p.2 then some b else some p := by
  rw [minByTime]

/-- On a strictly time-sorted entry list the least recently touched entry
is the last one. -/
theorem minByTime_eq_getLast? :
    ∀ l : List (String × Nat), List.Sorted (· > ·) (l.map Prod.snd) →
      minByTime l = l.getLast? := by
  intro l
  induction l with
  | nil => intro _; rfl
  | cons p rest ih =>
    intro hs
    cases rest with
    | nil => rfl
    | cons q rest' =>
      have hs' : List.Sorted (· > ·) ((q :: rest').map Prod.snd) := by
        rw [List.map_cons, List.sorted_cons] at hs
        exact hs.2
      have ihq := ih hs'
      obtain ⟨a, ha⟩ : ∃ a, (q :: rest').getLast? = some a := by
        cases hg : (q :: rest').getLast? with
        | some a => exact ⟨a, rfl⟩
        | none => simp [List.getLast?_eq_none_iff] at hg
      have hmem : a ∈ q :: rest' := List.mem_of_mem_getLast? ha
      have hlt : a.2 < p.2 := by
        rw [List.map_cons, List.sorted_cons] at hs
        exact hs.1 a.2 (List.mem_map_of_mem Prod.snd hmem)
      rw [minByTime_cons, ihq, List.getLast?_cons_cons, ha]
      simp [hlt]

/-- C8: starting from an empty cache of any capacity, after any sequence
of lookups and inserts the entry count never exceeds the capacity; the
keys agree with the time-instrumented shadow run; and an insert of a fresh
key into a full cache keeps the new key plus all old keys except the last,
where the evicted last key is exactly the entry whose last touch by hit or
insert is the oldest. -/
theorem cache_bound_and_lru {α : Type} (cap : Nat) (ops : List (CacheOp α))
    (k : String) (v : α) :
    (runOps (Lru.mkEmpty α cap) ops).entries.length ≤ cap ∧
    keysOf (runOps (Lru.mkEmpty α cap) ops) =
      keysOf (runTimed 0 (Lru.mkEmpty Nat cap) (ops.map stripOp)) ∧
    (0 < cap →
      (runOps (Lru.mkEmpty α cap) ops).entries.length = cap →
      k ∉ keysOf (runOps (Lru.mkEmpty α cap) ops) →
      keysOf ((runOps (Lru.mkEmpty α cap) ops).insert k v) =
        k :: (keysOf (runOps (Lru.mkEmpty α cap) ops)).dropLast ∧
      (keysOf (runOps (Lru.mkEmpty α cap) ops)).getLast? =
        (minByTime (runTimed 0 (Lru.mkEmpty Nat cap)
          (ops.map stripOp)).entries).map Prod.fst) := by
  have hbase : LruInv (Lru.mkEmpty α cap) (Lru.mkEmpty Nat cap) 0 :=
    ⟨rfl, rfl, by simp [Lru.mkEmpty], by simp [Lru.mkEmpty], by simp [Lru.mkEmpty]⟩
  obtain ⟨hcap, hkeys, hbound, hs, hb⟩ :=
    lruInv_run ops (Lru.mkEmpty α cap) (Lru.mkEmpty Nat cap) 0 hbase
  have hcapc : (runOps (Lru.mkEmpty α cap) ops).capacity = cap :=
    capacity_runOps ops (Lru.mkEmpty α cap)
  refine ⟨hbound.trans (le_of_eq hcapc), hkeys, ?_⟩
  intro hpos hfull hfresh
  have hfil : (runOps (Lru.mkEmpty α cap) ops).entries.filter
      (fun e => !(e.1 == k)) = (runOps (Lru.mkEmpty α cap) ops).entries := by
    apply List.filter_eq_self.mpr
    intro e he
    have hek : e.1 ≠ k := fun hek =>
      hfresh (hek ▸ List.mem_map_of_mem Prod.fst he)
    simp [hek]
  have hklen : (keysOf (runOps (Lru.mkEmpty α cap) ops)).length = cap := by
    simp [keysOf, hfull]
  constructor
  · rw [keysOf_insert, hcapc]
    have hfilk : (keysOf (runOps (Lru.mkEmpty α cap) ops)).filter
        (fun j => !(j == k)) = keysOf (runOps (Lru.mkEmpty α cap) ops) := by
      rw [keysOf, ← map_fst_filter_key, hfil]
    rw [hfilk]
    exact take_cons_full k (keysOf (runOps (Lru.mkEmpty α cap) ops)) cap hklen hpos
  · have hmin : minByTime (runTimed 0 (Lru.mkEmpty Nat cap)
        (ops.map stripOp)).entries =
        (runTimed 0 (Lru.mkEmpty Nat cap) (ops.map stripOp)).entries.getLast? :=
      minByTime_eq_getLast? _ hs
    rw [hmin, ← List.getLast?_map]
    exact congrArg List.getLast? hkeys

/-- Witness for C8 at capacity two: after inserting `a`, inserting `b` and
then hitting `a`, the least recently touched key is `b`; inserting the
fresh key `c` into the full cache keeps `c` and `a` and evicts `b`. -/
theorem cache_bound_and_lru_witness :
    keysOf ((runOps (Lru.mkEmpty Nat 2) lruOpsEx).insert "c" 0) =
      "c" :: (keysOf (runOps (Lru.mkEmpty Nat 2) lruOpsEx)).dropLast ∧
    (keysOf (runOps (Lru.mkEmpty Nat 2) lruOpsEx)).getLast? =
      (minByTime (runTimed 0 (Lru.mkEmpty Nat 2)
        (lruOpsEx.map stripOp)).entries).map Prod.fst :=
  (cache_bound_and_lru 2 lruOpsEx "c" 0).2.2 (by decide) (by rfl) (by decide)

end Hogan
